import Mathlib

/-!
Verification development for the SuperSexySteamDownloader reconciliation engine.

The Python source (`SuperSexySteamDownloader.py`) is shallowly embedded here:
file contents are lists of byte values (`List Nat`), the local file tree is an
association list from path to contents, the SHA-1 digest function is an
arbitrary parameter `hash : List Nat → List Nat`, and the interactive /
network collaborators are parameters (`net`, `outcome`, `accept`).
-/

/-- Association-list lookup, modelling Python `dict` access (`m[k]`, `k in m`). -/
def alFind {κ : Type} [DecidableEq κ] {α : Type} : List (κ × α) → κ → Option α
  | [], _ => none
  | (k, v) :: rest, k' => if k = k' then some v else alFind rest k'

/-- Association-list update, modelling Python `dict` assignment `m[k] = v`:
an existing key keeps its position and gets the new value, a new key is
appended at the end (insertion order). -/
def alSet {κ : Type} [DecidableEq κ] {α : Type} : List (κ × α) → κ → α → List (κ × α)
  | [], k, v => [(k, v)]
  | (k0, v0) :: rest, k, v =>
    if k0 = k then (k, v) :: rest else (k0, v0) :: alSet rest k v

/-- One manifest chunk: `chunk.cb_original` (decompressed byte count) and
`chunk.sha` (its content digest), as used by `_verify_and_repair_file`. -/
structure Chunk where
  cb_original : Nat
  sha : List Nat
deriving DecidableEq

/-- A manifest file entry (steam.py `DepotFile`): decrypted `filename`,
total `size`, ordered `chunks`, `is_directory` flag, and the internal read
cursor `offset` manipulated via `seek`. -/
structure FileInfo where
  filename : String
  size : Nat
  chunks : List Chunk
  is_directory : Bool
  offset : Nat
deriving DecidableEq

/-- The digest function (SHA-1 in the source) is kept abstract. -/
abbrev HashFn := List Nat → List Nat

/-- The number of verified leading bytes computed by the read loop of
`_verify_and_repair_file`: for each chunk in order, read `cb_original`
bytes; break on empty read (`if not data`) or digest mismatch; otherwise
add `cb_original` and continue on the remaining bytes. -/
def verifiedOffset (hash : HashFn) : List Nat → List Chunk → Nat
  | _, [] => 0
  | data, c :: cs =>
    if (data.take c.cb_original).isEmpty then 0
    else if hash (data.take c.cb_original) ≠ c.sha then 0
    else c.cb_original + verifiedOffset hash (data.drop c.cb_original) cs

/-- `f.truncate n` on a file holding `data`: keeps the first `n` bytes and
zero-pads when the file was shorter than `n`. -/
def truncateTo (data : List Nat) (n : Nat) : List Nat :=
  data.take n ++ List.replicate (n - data.length) 0

/-- `SteamDownloaderApp._verify_and_repair_file`. The local file is
`none` when absent. `ioError` models an `IOError` raised by open / read /
truncate, caught by the `except IOError` handler. Returns the updated
file entry (its `offset` reflects the `seek` calls), the resulting local
file contents, and the boolean verdict. -/
def verify_and_repair_file (hash : HashFn) (fi : FileInfo)
    (file : Option (List Nat)) (ioError : Bool) :
    FileInfo × Option (List Nat) × Bool :=
  match file with
  | none => ({ fi with offset := 0 }, none, false)
  | some data =>
    if ioError then ({ fi with offset := 0 }, some data, false)
    else
      let v := verifiedOffset hash data fi.chunks
      if v = fi.size then (fi, some data, true)
      else ({ fi with offset := v }, some (truncateTo data v), false)

/-- The local file tree: path → contents. -/
abbrev FS := List (String × List Nat)

/-- `SteamDownloaderApp._download_single_file`. `net p` is the byte stream
the manifest iterator would yield for the whole file at path `p`; iteration
starts at the entry's cursor, so `drop fi.offset` is what gets appended
(the file is opened in `'ab'` append mode). `outcome p = none` means the
worker completed; `outcome p = some k` means an exception struck after `k`
bytes were appended — the worker catches it and logs, never re-raising. -/
def download_single_file (net : String → List Nat) (outcome : String → Option Nat)
    (fi : FileInfo) (fs : FS) : FS :=
  let cur := (alFind fs fi.filename).getD []
  let todo := (net fi.filename).drop fi.offset
  let written := match outcome fi.filename with
    | none => todo
    | some k => todo.take k
  alSet fs fi.filename (cur ++ written)

/-- The bytes a single worker appends for entry `fi` under a given outcome. -/
def workerWritten (net : String → List Nat) (outcome : String → Option Nat)
    (fi : FileInfo) : List Nat :=
  let todo := (net fi.filename).drop fi.offset
  match outcome fi.filename with
  | none => todo
  | some k => todo.take k

/-- The download scheduler (PHASE 2): every submitted entry is processed by
exactly one worker and the pool drains before control returns. Workers of a
batch own pairwise distinct paths, so their effects commute and the batch is
modelled as a sequential fold. -/
def downloadAll (net : String → List Nat) (outcome : String → Option Nat)
    (files : List FileInfo) (fs : FS) : FS :=
  files.foldl (fun s fi => download_single_file net outcome fi s) fs

/-- Writing back the contents produced by one verification: an absent file
stays absent (no file is created), a present file's (possibly truncated)
contents replace the old ones. -/
def applyVerifyFs (fs : FS) (name : String) : Option (List Nat) → FS
  | none => fs
  | some d => alSet fs name d

/-- PHASE 1 of `_execute_verification_and_download_cycle`: scan every entry
in order, skip directories, verify the rest. Returns the updated entry list
(cursors moved by `seek`), the file tree after any truncations, and the
`files_to_download` list in scan order. -/
def verifyPass (hash : HashFn) (fs : FS) : List FileInfo → List FileInfo × FS × List FileInfo
  | [] => ([], fs, [])
  | fi :: rest =>
    if fi.is_directory then
      let r := verifyPass hash fs rest
      (fi :: r.1, r.2.1, r.2.2)
    else
      let v := verify_and_repair_file hash fi (alFind fs fi.filename) false
      let fs' := applyVerifyFs fs fi.filename v.2.1
      let r := verifyPass hash fs' rest
      (v.1 :: r.1, r.2.1, if v.2.2 then r.2.2 else v.1 :: r.2.2)

/-- `SteamDownloaderApp._execute_verification_and_download_cycle`, the
reconciliation loop. `verifyOnly` is the `verify_only` flag, `accept` the
user's answer at the repair prompt. `fuel` bounds the number of passes
(the source loops unboundedly; `none` means the bound was hit). The result
carries: success flag (`True` on return, `False` on user cancel), number
of verification passes run, number of files handed to the scheduler, and
the final file tree. -/
def cycleRun (hash : HashFn) (net : String → List Nat) (outcome : String → Option Nat) :
    Nat → List FileInfo → FS → Bool → Bool → Option (Bool × Nat × Nat × FS)
  | 0, _, _, _, _ => none
  | fuel + 1, files, fs, verifyOnly, accept =>
    let p := verifyPass hash fs files
    if p.2.2.isEmpty then some (true, 1, 0, p.2.1)
    else if verifyOnly && !accept then some (false, 1, 0, p.2.1)
    else
      let fs2 := downloadAll net outcome p.2.2 p.2.1
      match cycleRun hash net outcome fuel p.1 fs2 false accept with
      | none => none
      | some (succ, passes, dls, fsf) => some (succ, passes + 1, dls + p.2.2.length, fsf)

/-- One depot as seen by the aggregation loop of `download_game`: its id and
the decrypted file entries its manifest yields (`manifest.iter_files()`). -/
structure AggDepot where
  depot_id : Nat
  files : List FileInfo
deriving DecidableEq

/-- One line of `self.overwrite_log`: the path, the superseded depot and the
winning depot. -/
structure OverwriteEvent where
  path : String
  old_depot : Nat
  new_depot : Nat
deriving DecidableEq

/-- The inner aggregation loop of `download_game` over one depot's files:
a colliding path records an overwrite event and is remapped to the new
entry paired with the new depot id. -/
def aggFiles (did : Nat) : List FileInfo → List (String × (FileInfo × Nat)) →
    List OverwriteEvent → List (String × (FileInfo × Nat)) × List OverwriteEvent
  | [], m, log => (m, log)
  | fi :: rest, m, log =>
    match alFind m fi.filename with
    | some old =>
      aggFiles did rest (alSet m fi.filename (fi, did))
        (log ++ [⟨fi.filename, old.2, did⟩])
    | none => aggFiles did rest (alSet m fi.filename (fi, did)) log

/-- The outer aggregation loop over the depot queue, in queue order. -/
def aggDepots : List AggDepot → List (String × (FileInfo × Nat)) →
    List OverwriteEvent → List (String × (FileInfo × Nat)) × List OverwriteEvent
  | [], m, log => (m, log)
  | d :: ds, m, log =>
    let r := aggFiles d.depot_id d.files m log
    aggDepots ds r.1 r.2

/-- `download_game`'s manifest aggregation: builds `master_file_map` and
`self.overwrite_log` starting from empty state. -/
def aggregate (ds : List AggDepot) :
    List (String × (FileInfo × Nat)) × List OverwriteEvent :=
  aggDepots ds [] []

/-- A line of the `.sfd` text file, as byte values, without the trailing
newline that `readline` returns and `strip()` removes. -/
abbrev Line := List Nat

/-- Python whitespace for `str.strip()` (ASCII subset). -/
def isPySpace (c : Nat) : Bool :=
  c == 32 || c == 9 || c == 10 || c == 13 || c == 11 || c == 12

/-- `str.strip()`. -/
def pyStrip (l : Line) : Line :=
  ((l.dropWhile isPySpace).reverse.dropWhile isPySpace).reverse

/-- Little-endian decimal digits of `n` as character codes (empty for 0). -/
def natDigitsRev (n : Nat) : List Nat :=
  if h : n = 0 then [] else (n % 10 + 48) :: natDigitsRev (n / 10)
decreasing_by exact Nat.div_lt_self (Nat.pos_of_ne_zero h) (by omega)

/-- `str(n)` for a non-negative integer. -/
def encNat (n : Nat) : Line :=
  if n = 0 then [48] else (natDigitsRev n).reverse

def isDigitB (c : Nat) : Bool := decide (48 ≤ c ∧ c ≤ 57)

/-- Numeric value of a decimal digit string. -/
def decVal (l : Line) : Nat := l.foldl (fun a c => 10 * a + (c - 48)) 0

/-- `int(s)` on the digit strings the writer emits (exact there; stricter
than `int()` on foreign input — its failure is not used as a model of
`int()` failure, see `definitelyNotIntB`). -/
def decNat (l : Line) : Option Nat :=
  if l.isEmpty then none else if l.all isDigitB then some (decVal l) else none

/-- Lowercase hex digit character for a value below 16. -/
def hexChar (d : Nat) : Nat := if d < 10 then d + 48 else d + 87

/-- `bytes.hex()`. -/
def encHexBytes : List Nat → Line
  | [] => []
  | b :: bs => hexChar (b / 16) :: hexChar (b % 16) :: encHexBytes bs

/-- Value of one hex digit character (either case), `none` otherwise. -/
def hexVal? (c : Nat) : Option Nat :=
  if 48 ≤ c ∧ c ≤ 57 then some (c - 48)
  else if 97 ≤ c ∧ c ≤ 102 then some (c - 87)
  else if 65 ≤ c ∧ c ≤ 70 then some (c - 55)
  else none

/-- `bytes.fromhex(s)` on the writer's output (exact there; stricter than
`fromhex` on foreign input, see `definitelyNotHexB`). -/
def decHexBytes : Line → Option (List Nat)
  | [] => some []
  | c1 :: c2 :: rest =>
    match hexVal? c1, hexVal? c2, decHexBytes rest with
    | some v1, some v2, some bs => some ((16 * v1 + v2) :: bs)
    | _, _, _ => none
  | _ => none

/-- Quote character chosen by `repr(bytes)`: a single quote unless the data
holds a single quote but no double quote. -/
def bytesLitQuote (bs : List Nat) : Nat :=
  if bs.contains 39 && !(bs.contains 34) then 34 else 39

/-- How `repr(bytes)` renders one byte under quote `q`. -/
def escByte (q : Nat) (b : Nat) : List Nat :=
  if b = 92 then [92, 92]
  else if b = q then [92, q]
  else if b = 9 then [92, 116]
  else if b = 10 then [92, 110]
  else if b = 13 then [92, 114]
  else if 32 ≤ b ∧ b ≤ 126 then [b]
  else [92, 120, hexChar (b / 16), hexChar (b % 16)]

def escBytes (q : Nat) : List Nat → List Nat
  | [] => []
  | b :: bs => escByte q b ++ escBytes q bs

/-- `repr(bytes)`: a `b` prefix, the chosen quote, the escaped payload and
the closing quote. -/
def encPyBytes (bs : List Nat) : Line :=
  98 :: bytesLitQuote bs :: (escBytes (bytesLitQuote bs) bs ++ [bytesLitQuote bs])

/-- Body of `ast.literal_eval` on a bytes literal: consume escaped bytes up
to the closing quote, which must end the input. -/
def decLitBody (q : Nat) : List Nat → Option (List Nat)
  | [] => none
  | c :: cs =>
    if c = q then (if cs.isEmpty then some [] else none)
    else if c = 92 then
      match cs with
      | [] => none
      | e :: cs2 =>
        if e = 92 then (decLitBody q cs2).map (fun r => 92 :: r)
        else if e = 39 then (decLitBody q cs2).map (fun r => 39 :: r)
        else if e = 34 then (decLitBody q cs2).map (fun r => 34 :: r)
        else if e = 116 then (decLitBody q cs2).map (fun r => 9 :: r)
        else if e = 110 then (decLitBody q cs2).map (fun r => 10 :: r)
        else if e = 114 then (decLitBody q cs2).map (fun r => 13 :: r)
        else if e = 120 then
          match cs2 with
          | h1 :: h2 :: cs3 =>
            match hexVal? h1, hexVal? h2 with
            | some v1, some v2 => (decLitBody q cs3).map (fun r => (16 * v1 + v2) :: r)
            | _, _ => none
          | _ => none
        else none
    else (decLitBody q cs).map (fun r => c :: r)

/-- `ast.literal_eval` restricted to bytes literals (anything else the
loader would subsequently choke on; modelled as failure). -/
def decPyBytesLit (l : Line) : Option (List Nat) :=
  match l with
  | 98 :: c :: rest => if c = 39 ∨ c = 34 then decLitBody c rest else none
  | _ => none

/-- The `"EndOfFile"` sentinel line. -/
def sentinelLine : Line := [69, 110, 100, 79, 102, 70, 105, 108, 101]

/-- One record of the download queue as persisted in a `.sfd` file and as
held in `self.depots_to_download`. -/
structure SfdDepot where
  depot_id : Nat
  manifest_id : Nat
  depot_key : List Nat
  manifest_content : List Nat
deriving DecidableEq

/-- The four lines `_write_sfd_file` emits for one depot. -/
def sfdRecordLines (d : SfdDepot) : List Line :=
  [encNat d.depot_id, encNat d.manifest_id, encHexBytes d.depot_key,
    encPyBytes d.manifest_content]

def sfdRecords : List SfdDepot → List Line
  | [] => []
  | d :: ds => sfdRecordLines d ++ sfdRecords ds

/-- The app-id line followed by the depot records, in queue order. -/
def sfdBody (a : Nat) (ds : List SfdDepot) : List Line :=
  encNat a :: sfdRecords ds

/-- `SteamDownloaderApp._write_sfd_file`: app id, records in list order,
terminal sentinel. -/
def writeSfd (a : Nat) (ds : List SfdDepot) : List Line :=
  sfdBody a ds ++ [sentinelLine]

/-- The application state touched by `_load_sfd_from_path` / `_reset_queue`:
the active app id, the depot queue, the overwrite log and the two CDN
caches (`cdn.depot_keys`, `cdn.manifests`). -/
structure QueueState where
  app_id : Option Nat
  depots_to_download : List SfdDepot
  overwrite_log : List OverwriteEvent
  depot_keys : List (Nat × List Nat)
  manifests : List ((Nat × Nat × Nat) × List Nat)
deriving DecidableEq

/-- `SteamDownloaderApp._reset_queue`. -/
def emptyQueue : QueueState := ⟨none, [], [], [], []⟩

/-- Appending one parsed depot: extend the queue and populate both CDN
caches, exactly as the loader's loop body does. -/
def pushDepot (appId : Nat) (st : QueueState) (d : SfdDepot) : QueueState :=
  { st with
    depots_to_download := st.depots_to_download ++ [d],
    depot_keys := alSet st.depot_keys d.depot_id d.depot_key,
    manifests := alSet st.manifests (appId, d.depot_id, d.manifest_id) d.manifest_content }

/-- The external manifest constructor `cdn.DepotManifestClass(cdn, app_id,
payload)` the loader invokes for every record (steam.py, an external
collaborator): it eagerly deserializes the payload and raises unless the
bytes are a genuine serialized manifest. Kept abstract as an acceptance
oracle, like the digest function `hash`. -/
abbrev ManifestOk := List Nat → Bool

/-- The record loop of `_load_sfd_from_path`: stop cleanly at end of input
or at the sentinel; with fewer than four lines left, warn and keep what was
loaded; a record whose fields fail to parse, or whose payload the manifest
constructor (`mok`) rejects, raises, and the handler resets the whole
queue. (The source appends the depot and the key before constructing the
manifest object, but a raise there resets everything, so the post-states
coincide with gating the push on `mok`.) -/
def parseRecords (mok : ManifestOk) (appId : Nat) : QueueState → List Line → QueueState
  | st, [] => st
  | st, l1 :: l2 :: l3 :: l4 :: rest =>
    if pyStrip l1 = sentinelLine then st
    else
      match decNat (pyStrip l1), decNat (pyStrip l2), decHexBytes (pyStrip l3),
          decPyBytesLit (pyStrip l4) with
      | some did, some mid, some key, some pay =>
        if mok pay then
          parseRecords mok appId (pushDepot appId st ⟨did, mid, key, pay⟩) rest
        else emptyQueue
      | _, _, _, _ => emptyQueue
  | st, l1 :: _ =>
    if pyStrip l1 = sentinelLine then st else st

/-- `SteamDownloaderApp._load_sfd_from_path`: reset, parse the app id (a
failure resets and aborts), then run the record loop. -/
def loadSfd (mok : ManifestOk) (lines : List Line) : QueueState :=
  match lines with
  | [] => emptyQueue
  | l0 :: rest =>
    match decNat (pyStrip l0) with
    | none => emptyQueue
    | some a => parseRecords mok a { emptyQueue with app_id := some a } rest

/-- Well-formedness of queue data for persistence: every key byte and every
manifest byte is an actual byte. -/
def sfdWfB (ds : List SfdDepot) : Bool :=
  ds.all fun d =>
    d.depot_key.all (fun b => decide (b < 256)) &&
    d.manifest_content.all (fun b => decide (b < 256))

/-- `InstalledDepots` sub-block data: `manifest` gid, `size`, optional
`dlcappid`. -/
structure AcfDetails where
  manifest : Nat
  size : Nat
  dlc_appid : Option Nat
deriving DecidableEq

/-- The app metadata `generate_acf_content` reads from `self.app_info`. -/
structure AcfAppInfo where
  name : String
  installdir : String
  buildid : String
deriving DecidableEq

/-- Stable insertion of a keyed pair, equal keys keeping their relative
order — the behaviour of Python `sorted` on key-unique pairs. -/
def insertByKey {α : Type} (x : Nat × α) : List (Nat × α) → List (Nat × α)
  | [] => [x]
  | y :: ys => if x.1 < y.1 then x :: y :: ys else y :: insertByKey x ys

/-- `sorted(d.items())` for an integer-keyed dict. -/
def sortByKey {α : Type} : List (Nat × α) → List (Nat × α)
  | [] => []
  | x :: xs => insertByKey x (sortByKey xs)

/-- `size_on_disk = sum(d['size'] for d in self.depots.values())`. -/
def size_on_disk (depots : List (Nat × AcfDetails)) : Nat :=
  (depots.map fun p => p.2.size).sum

/-- A double-quote character as a string. -/
def dq : String := "\x22"

/-- `f'{t1}"{key}"{t2}"{value}"\n'`. -/
def acfMainLine (key val : String) : String :=
  "\t" ++ dq ++ key ++ dq ++ "\t\t" ++ dq ++ val ++ dq ++ "\n"

/-- The fixed `main_kv` block lines, in the source's insertion order. -/
def mainKvLines (app_id : Nat) (info : AcfAppInfo) (sz : Nat) : List String :=
  [ acfMainLine "appid" (toString app_id),
    acfMainLine "Universe" "1",
    acfMainLine "LauncherPath" "",
    acfMainLine "name" info.name,
    acfMainLine "StateFlags" "4",
    acfMainLine "installdir" info.installdir,
    acfMainLine "LastUpdated" "0",
    acfMainLine "SizeOnDisk" (toString sz),
    acfMainLine "StagingSize" "0",
    acfMainLine "buildid" info.buildid,
    acfMainLine "LastOwner" "None",
    acfMainLine "UpdateResult" "0",
    acfMainLine "BytesToDownload" "0",
    acfMainLine "BytesDownloaded" "0",
    acfMainLine "BytesToStage" "0",
    acfMainLine "BytesStaged" "0",
    acfMainLine "TargetBuildID" "0",
    acfMainLine "AutoUpdateBehavior" "0",
    acfMainLine "AllowOtherDownloadsWhileRunning" "0",
    acfMainLine "ScheduledAutoUpdate" "0" ]

/-- One `InstalledDepots` sub-block. -/
def depotBlock (p : Nat × AcfDetails) : List String :=
  [ "\t\t" ++ dq ++ toString p.1 ++ dq ++ "\n",
    "\t\t\x7b\n",
    "\t\t\t" ++ dq ++ "manifest" ++ dq ++ "\t\t" ++ dq ++ toString p.2.manifest ++ dq ++ "\n",
    "\t\t\t" ++ dq ++ "size" ++ dq ++ "\t\t" ++ dq ++ toString p.2.size ++ dq ++ "\n" ]
  ++ (match p.2.dlc_appid with
      | some dlc =>
        ["\t\t\t" ++ dq ++ "dlcappid" ++ dq ++ "\t\t" ++ dq ++ toString dlc ++ dq ++ "\n"]
      | none => [])
  ++ ["\t\t\x7d\n"]

/-- One `SharedDepots` line. -/
def sharedLine (p : Nat × Nat) : String :=
  "\t\t" ++ dq ++ toString p.1 ++ dq ++ "\t\t" ++ dq ++ toString p.2 ++ dq ++ "\n"

/-- `SteamManifestGenerator.generate_acf_content` as the list of
`content_parts` it joins: header, `main_kv` block, the `InstalledDepots`
blocks over `sorted(self.depots.items())`, and the `SharedDepots` lines
over `sorted(self.shared_depots.items())`. -/
def acfContentParts (app_id : Nat) (info : AcfAppInfo)
    (depots : List (Nat × AcfDetails)) (shared : List (Nat × Nat)) : List String :=
  [dq ++ "AppState" ++ dq ++ "\n", "\x7b\n"]
  ++ mainKvLines app_id info (size_on_disk depots)
  ++ ["\t" ++ dq ++ "InstalledDepots" ++ dq ++ "\n", "\t\x7b\n"]
  ++ ((sortByKey depots).map depotBlock).flatten
  ++ ["\t\x7d\n", "\t" ++ dq ++ "SharedDepots" ++ dq ++ "\n", "\t\x7b\n"]
  ++ (sortByKey shared).map sharedLine
  ++ ["\t\x7d\n", "\x7d\n"]

/-- The final `"".join(content_parts)`. -/
def generate_acf_content (app_id : Nat) (info : AcfAppInfo)
    (depots : List (Nat × AcfDetails)) (shared : List (Nat × Nat)) : String :=
  String.join (acfContentParts app_id info depots shared)

/-- The depot ids in the order their `InstalledDepots` blocks are emitted. -/
def installedDepotIds (depots : List (Nat × AcfDetails)) : List Nat :=
  (sortByKey depots).map fun p => p.1

/-- The depot ids in the order their `SharedDepots` lines are emitted. -/
def sharedDepotIds (shared : List (Nat × Nat)) : List Nat :=
  (sortByKey shared).map fun p => p.1

/-- Total decompressed size of a chunk list. -/
def chunkSizesSum (chunks : List Chunk) : Nat :=
  (chunks.map fun c => c.cb_original).sum

/-- `sum(original_size for chunks[0..n))`. -/
def sumTake (chunks : List Chunk) (n : Nat) : Nat :=
  chunkSizesSum (chunks.take n)

/-- The first `n` chunks of `data` verify (non-empty reads whose digests
match) and the chunk after them has a digest mismatch. -/
def mismatchAfterB (hash : HashFn) : Nat → List Nat → List Chunk → Bool
  | _, _, [] => false
  | 0, data, c :: _ => hash (data.take c.cb_original) != c.sha
  | n + 1, data, c :: cs =>
    !(data.take c.cb_original).isEmpty &&
      (hash (data.take c.cb_original) == c.sha) &&
      mismatchAfterB hash n (data.drop c.cb_original) cs

/-- `data` is exactly the concatenation of full-length chunk reads, each
matching its digest. -/
def fullMatchB (hash : HashFn) : List Nat → List Chunk → Bool
  | data, [] => data.isEmpty
  | data, c :: cs =>
    !(data.take c.cb_original).isEmpty &&
      ((data.take c.cb_original).length == c.cb_original) &&
      (hash (data.take c.cb_original) == c.sha) &&
      fullMatchB hash (data.drop c.cb_original) cs

/-- A concrete digest function for the evaluated witnesses. -/
def demoHash : HashFn := fun l => [l.length + 7, l.foldl (fun a b => 2 * a + b) 1]

def demoFiC2 : FileInfo :=
  ⟨"a.bin", 4, [⟨2, demoHash [10, 20]⟩, ⟨2, demoHash [9, 9]⟩], false, 0⟩

def demoFiC8 : FileInfo :=
  ⟨"b.bin", 4, [⟨2, demoHash [10, 20]⟩, ⟨2, demoHash [30, 40]⟩], false, 0⟩

def demoFiC9 : FileInfo :=
  ⟨"c.bin", 4, [⟨2, demoHash [10, 20]⟩, ⟨2, demoHash [9, 9]⟩], false, 0⟩

def demoNetC9 : String → List Nat := fun p => if p = "c.bin" then [10, 20, 9, 9] else []

def wFileA : FileInfo := ⟨"shared.txt", 1, [], false, 0⟩
def wFileB : FileInfo := ⟨"shared.txt", 2, [], false, 0⟩
def wDepotA : AggDepot := ⟨100, [wFileA]⟩
def wDepotB : AggDepot := ⟨200, [wFileB]⟩

def wf1 : FileInfo := ⟨"f1", 2, [⟨2, demoHash [1, 2]⟩], false, 0⟩
def wf2 : FileInfo := ⟨"f2", 2, [⟨2, demoHash [3, 4]⟩], false, 0⟩
def wf3 : FileInfo := ⟨"f3", 2, [⟨2, demoHash [5, 6]⟩], false, 0⟩
def wfs0 : FS := [("f1", [1, 2]), ("f2", [3, 4])]
def wnet : String → List Nat := fun p => if p = "f3" then [5, 6] else []

def wg1 : FileInfo := ⟨"g1", 2, [], false, 0⟩
def wg2 : FileInfo := ⟨"g2", 3, [], false, 1⟩
def wnetC7 : String → List Nat := fun p => if p = "g2" then [7, 8, 9] else [1, 2]
def wOutC7 : String → Option Nat := fun p => if p = "g1" then some 1 else none

def demoSfdDepot : SfdDepot := ⟨7, 8, [0, 171], [5, 39, 97]⟩

/-- A concrete manifest-acceptance oracle for the evaluated witnesses:
non-empty payloads are accepted, standing for genuine manifest bytes. -/
def demoMok : ManifestOk := fun bs => !bs.isEmpty

def exAcfDepots : List (Nat × AcfDetails) := [(20, ⟨222, 50, some 30⟩), (10, ⟨111, 100, none⟩)]

theorem alFind_alSet_self {κ : Type} [DecidableEq κ] {α : Type}
    (m : List (κ × α)) (k : κ) (v : α) : alFind (alSet m k v) k = some v := by
  induction m with
  | nil => simp [alSet, alFind]
  | cons p rest ih =>
    obtain ⟨k0, v0⟩ := p
    by_cases h : k0 = k
    · simp [alSet, h, alFind]
    · simp [alSet, h, alFind, ih]

theorem alFind_alSet_ne {κ : Type} [DecidableEq κ] {α : Type}
    (m : List (κ × α)) (k k' : κ) (v : α) (h : k' ≠ k) :
    alFind (alSet m k v) k' = alFind m k' := by
  induction m with
  | nil => simp [alSet, alFind, Ne.symm h]
  | cons p rest ih =>
    obtain ⟨k0, v0⟩ := p
    by_cases h0 : k0 = k
    · subst h0; simp [alSet, alFind, Ne.symm h]
    · simp [alSet, h0, alFind, ih]

theorem truncateTo_length (data : List Nat) (n : Nat) :
    (truncateTo data n).length = n := by
  simp [truncateTo]; omega

theorem verifiedOffset_of_mismatchAfter (hash : HashFn) :
    ∀ (n : Nat) (data : List Nat) (chunks : List Chunk),
      mismatchAfterB hash n data chunks = true →
      verifiedOffset hash data chunks = sumTake chunks n := by
  intro n
  induction n with
  | zero =>
    intro data chunks h
    match chunks with
    | [] => simp [mismatchAfterB] at h
    | c :: cs =>
      simp [mismatchAfterB] at h
      by_cases he : (data.take c.cb_original).isEmpty
      · simp [verifiedOffset, he, sumTake, chunkSizesSum]
      · simp [verifiedOffset, he, h, sumTake, chunkSizesSum]
  | succ n ih =>
    intro data chunks h
    match chunks with
    | [] => simp [mismatchAfterB] at h
    | c :: cs =>
      simp [mismatchAfterB] at h
      obtain ⟨⟨hne, hsha⟩, hrec⟩ := h
      simp [verifiedOffset, hne, hsha, ih _ _ hrec, sumTake, chunkSizesSum,
        List.take_succ_cons]

theorem mismatchAfterB_lt (hash : HashFn) :
    ∀ (n : Nat) (data : List Nat) (chunks : List Chunk),
      mismatchAfterB hash n data chunks = true → n < chunks.length := by
  intro n
  induction n with
  | zero =>
    intro data chunks h
    match chunks with
    | [] => simp [mismatchAfterB] at h
    | c :: cs => simp
  | succ n ih =>
    intro data chunks h
    match chunks with
    | [] => simp [mismatchAfterB] at h
    | c :: cs =>
      simp [mismatchAfterB] at h
      have := ih _ _ h.2
      simpa using this

theorem sumTake_lt : ∀ (chunks : List Chunk), (∀ c ∈ chunks, 0 < c.cb_original) →
    ∀ n, n < chunks.length → sumTake chunks n < chunkSizesSum chunks := by
  intro chunks
  induction chunks with
  | nil => intro _ n hn; simp at hn
  | cons c cs ih =>
    intro hpos n hn
    cases n with
    | zero =>
      have h0 := hpos c (by simp)
      simp [sumTake, chunkSizesSum]
      omega
    | succ n =>
      have hlt := ih (fun x hx => hpos x (by simp [hx])) n (by simpa using hn)
      simp [sumTake, chunkSizesSum, List.take_succ_cons] at hlt ⊢
      omega

theorem fullMatch_verifiedOffset (hash : HashFn) :
    ∀ (data : List Nat) (chunks : List Chunk), fullMatchB hash data chunks = true →
      verifiedOffset hash data chunks = chunkSizesSum chunks
      ∧ data.length = chunkSizesSum chunks := by
  intro data chunks
  induction chunks generalizing data with
  | nil =>
    intro h
    simp [fullMatchB, List.isEmpty_iff] at h
    simp [verifiedOffset, chunkSizesSum, h]
  | cons c cs ih =>
    intro h
    simp only [fullMatchB, Bool.and_eq_true, Bool.not_eq_true', beq_iff_eq] at h
    obtain ⟨⟨⟨hne, hlen⟩, hsha⟩, hrec⟩ := h
    have ihh := ih _ hrec
    have hle : c.cb_original ≤ data.length := by
      rw [List.length_take] at hlen; omega
    constructor
    · simp [verifiedOffset, hne, hsha, ihh.1, chunkSizesSum]
    · have hdl := ihh.2
      rw [List.length_drop] at hdl
      simp [chunkSizesSum] at hdl ⊢
      omega

/-- Claim C2: when the first `N` chunks hash-match and the `(N+1)`th chunk's
bytes differ from its digest, `_verify_and_repair_file` truncates the local
file to exactly `sum(original_size for chunks[0..N))` bytes and records that
value as the resume offset. -/
theorem verifier_truncates_at_first_mismatch (hash : HashFn) (fi : FileInfo)
    (data : List Nat) (N : Nat)
    (hm : mismatchAfterB hash N data fi.chunks = true)
    (hpos : ∀ c ∈ fi.chunks, 0 < c.cb_original)
    (hsum : chunkSizesSum fi.chunks = fi.size) :
    verify_and_repair_file hash fi (some data) false
      = ({ fi with offset := sumTake fi.chunks N },
          some (truncateTo data (sumTake fi.chunks N)), false)
    ∧ (truncateTo data (sumTake fi.chunks N)).length = sumTake fi.chunks N := by
  have hvo := verifiedOffset_of_mismatchAfter hash N data fi.chunks hm
  have hlt : sumTake fi.chunks N < fi.size :=
    hsum ▸ sumTake_lt _ hpos N (mismatchAfterB_lt hash N data fi.chunks hm)
  refine ⟨?_, truncateTo_length data _⟩
  simp [verify_and_repair_file, hvo, Nat.ne_of_lt hlt]

theorem verifier_truncates_at_first_mismatch_witness :
    mismatchAfterB demoHash 1 [10, 20, 30, 40] demoFiC2.chunks = true
    ∧ (verify_and_repair_file demoHash demoFiC2 (some [10, 20, 30, 40]) false
        = ({ demoFiC2 with offset := sumTake demoFiC2.chunks 1 },
            some (truncateTo [10, 20, 30, 40] (sumTake demoFiC2.chunks 1)), false)
       ∧ (truncateTo [10, 20, 30, 40] (sumTake demoFiC2.chunks 1)).length
          = sumTake demoFiC2.chunks 1) :=
  ⟨by decide, verifier_truncates_at_first_mismatch demoHash demoFiC2 [10, 20, 30, 40] 1
      (by decide) (by decide) (by decide)⟩

/-- Claim C3: `_verify_and_repair_file` never propagates an error: an absent
file yields resume offset 0 with no filesystem mutation (no file created),
and an IO error on open/read/truncate is treated as unverifiable, yielding
offset 0 with the file untouched. -/
theorem verifier_total_on_absent_or_io_error :
    (∀ (hash : HashFn) (fi : FileInfo) (ioErr : Bool),
      verify_and_repair_file hash fi none ioErr
        = ({ fi with offset := 0 }, none, false))
    ∧ (∀ (hash : HashFn) (fi : FileInfo) (data : List Nat),
      verify_and_repair_file hash fi (some data) true
        = ({ fi with offset := 0 }, some data, false)) := by
  constructor
  · intro hash fi ioErr; simp [verify_and_repair_file]
  · intro hash fi data; simp [verify_and_repair_file]

/-- Claim C8: on a file whose bytes exactly match all chunk digests,
verification returns the full size and mutates nothing, and repeating the
call gives the same result. -/
theorem verifier_idempotent_on_valid (hash : HashFn) (fi : FileInfo) (data : List Nat)
    (hm : fullMatchB hash data fi.chunks = true)
    (hsum : chunkSizesSum fi.chunks = fi.size) :
    verifiedOffset hash data fi.chunks = fi.size
    ∧ verify_and_repair_file hash fi (some data) false = (fi, some data, true)
    ∧ verify_and_repair_file hash
        (verify_and_repair_file hash fi (some data) false).1
        (verify_and_repair_file hash fi (some data) false).2.1 false
        = (fi, some data, true) := by
  have hv : verifiedOffset hash data fi.chunks = fi.size :=
    hsum ▸ (fullMatch_verifiedOffset hash data fi.chunks hm).1
  have h2 : verify_and_repair_file hash fi (some data) false = (fi, some data, true) := by
    simp [verify_and_repair_file, hv]
  exact ⟨hv, h2, by rw [h2]; exact h2⟩

theorem verifier_idempotent_on_valid_witness :
    fullMatchB demoHash [10, 20, 30, 40] demoFiC8.chunks = true
    ∧ (verifiedOffset demoHash [10, 20, 30, 40] demoFiC8.chunks = demoFiC8.size
       ∧ verify_and_repair_file demoHash demoFiC8 (some [10, 20, 30, 40]) false
          = (demoFiC8, some [10, 20, 30, 40], true)
       ∧ verify_and_repair_file demoHash
          (verify_and_repair_file demoHash demoFiC8 (some [10, 20, 30, 40]) false).1
          (verify_and_repair_file demoHash demoFiC8 (some [10, 20, 30, 40]) false).2.1 false
          = (demoFiC8, some [10, 20, 30, 40], true)) :=
  ⟨by decide, verifier_idempotent_on_valid demoHash demoFiC8 [10, 20, 30, 40]
      (by decide) (by decide)⟩

/-- Claim C9: a failed verification leaves the entry's cursor at exactly the
verified resume offset — 0 for an absent file, 0 for a present but
unreadable file (caught IO error, file untouched), the truncated length
otherwise; the download worker then opens in append mode and appends
exactly the stream from that cursor (for cursor 0 on a present file, the
whole stream after the existing bytes), so the verified bytes below the
resume offset are never rewritten. -/
theorem verify_download_cursor_coupling (hash : HashFn) (net : String → List Nat)
    (fi : FileInfo) :
    (∀ ioErr, verify_and_repair_file hash fi none ioErr
        = ({ fi with offset := 0 }, none, false))
    ∧ (∀ data, verify_and_repair_file hash fi (some data) true
        = ({ fi with offset := 0 }, some data, false))
    ∧ (∀ data, verifiedOffset hash data fi.chunks ≠ fi.size →
        verify_and_repair_file hash fi (some data) false
          = ({ fi with offset := verifiedOffset hash data fi.chunks },
              some (truncateTo data (verifiedOffset hash data fi.chunks)), false)
        ∧ (truncateTo data (verifiedOffset hash data fi.chunks)).length
            = verifiedOffset hash data fi.chunks)
    ∧ (∀ fs t s, alFind fs fi.filename = some t → t.length = s →
        alFind (download_single_file net (fun _ => none) { fi with offset := s } fs)
            fi.filename
          = some (t ++ (net fi.filename).drop s)
        ∧ (t ++ (net fi.filename).drop s).take s = t)
    ∧ (∀ fs t, alFind fs fi.filename = some t →
        alFind (download_single_file net (fun _ => none) { fi with offset := 0 } fs)
            fi.filename
          = some (t ++ net fi.filename))
    ∧ (∀ fs, alFind fs fi.filename = none →
        alFind (download_single_file net (fun _ => none) { fi with offset := 0 } fs)
            fi.filename
          = some (net fi.filename)) := by
  refine ⟨?_, ?_, ?_, ?_, ?_, ?_⟩
  · intro ioErr; simp [verify_and_repair_file]
  · intro data; simp [verify_and_repair_file]
  · intro data h
    exact ⟨by simp [verify_and_repair_file, h], truncateTo_length data _⟩
  · intro fs t s hfind hlen
    constructor
    · simp [download_single_file, hfind, alFind_alSet_self]
    · subst hlen; exact List.take_left' rfl
  · intro fs t hfind
    simp [download_single_file, hfind, alFind_alSet_self]
  · intro fs h
    simp [download_single_file, h, alFind_alSet_self]

theorem verify_download_cursor_coupling_witness :
    verifiedOffset demoHash [10, 20, 30, 40] demoFiC9.chunks ≠ demoFiC9.size
    ∧ (verify_and_repair_file demoHash demoFiC9 (some [10, 20, 30, 40]) false
        = ({ demoFiC9 with offset := verifiedOffset demoHash [10, 20, 30, 40] demoFiC9.chunks },
            some (truncateTo [10, 20, 30, 40]
              (verifiedOffset demoHash [10, 20, 30, 40] demoFiC9.chunks)), false)
       ∧ (truncateTo [10, 20, 30, 40]
            (verifiedOffset demoHash [10, 20, 30, 40] demoFiC9.chunks)).length
          = verifiedOffset demoHash [10, 20, 30, 40] demoFiC9.chunks) :=
  ⟨by decide, (verify_download_cursor_coupling demoHash demoNetC9 demoFiC9).2.2.1
      [10, 20, 30, 40] (by decide)⟩

theorem download_single_file_preserves (net : String → List Nat)
    (outcome : String → Option Nat) (fi : FileInfo) (fs : FS) (p : String)
    (h : fi.filename ≠ p) :
    alFind (download_single_file net outcome fi fs) p = alFind fs p := by
  simp only [download_single_file]
  exact alFind_alSet_ne fs fi.filename p _ (Ne.symm h)

theorem downloadAll_cons (net : String → List Nat) (outcome : String → Option Nat)
    (f : FileInfo) (rest : List FileInfo) (fs : FS) :
    downloadAll net outcome (f :: rest) fs
      = downloadAll net outcome rest (download_single_file net outcome f fs) := by
  simp [downloadAll]

theorem downloadAll_preserves (net : String → List Nat) (outcome : String → Option Nat) :
    ∀ (files : List FileInfo) (fs : FS) (p : String),
      (∀ f ∈ files, f.filename ≠ p) →
      alFind (downloadAll net outcome files fs) p = alFind fs p := by
  intro files
  induction files with
  | nil => intro fs p _; simp [downloadAll]
  | cons f rest ih =>
    intro fs p h
    rw [downloadAll_cons,
      ih (download_single_file net outcome f fs) p (fun x hx => h x (by simp [hx])),
      download_single_file_preserves net outcome f fs p (h f (by simp))]

/-- Claim C7: in the download scheduler, every submitted entry's worker runs
to completion or caught failure before control returns, and one file's
outcome (including a failure part-way through) never affects another file's
resulting contents: the batch result at a file's path is exactly that
file's own worker output on the initial tree. -/
theorem scheduler_worker_isolation (net : String → List Nat)
    (outcome : String → Option Nat) :
    ∀ (files : List FileInfo) (fs : FS) (g : FileInfo),
      g ∈ files →
      List.Pairwise (fun x y => x.filename ≠ y.filename) files →
      alFind (downloadAll net outcome files fs) g.filename
        = some (((alFind fs g.filename).getD []) ++ workerWritten net outcome g) := by
  intro files
  induction files with
  | nil => intro fs g hg; simp at hg
  | cons f rest ih =>
    intro fs g hg hpw
    rcases List.mem_cons.mp hg with hfg | hgr
    · subst hfg
      rw [downloadAll_cons]
      have hrest : ∀ x ∈ rest, x.filename ≠ g.filename := by
        intro x hx
        exact Ne.symm ((List.pairwise_cons.mp hpw).1 x hx)
      rw [downloadAll_preserves net outcome rest _ g.filename hrest]
      simp [download_single_file, workerWritten, alFind_alSet_self]
    · have hne : f.filename ≠ g.filename := (List.pairwise_cons.mp hpw).1 g hgr
      rw [downloadAll_cons,
        ih (download_single_file net outcome f fs) g hgr (List.pairwise_cons.mp hpw).2,
        download_single_file_preserves net outcome f fs g.filename hne]

theorem scheduler_worker_isolation_witness :
    wg2 ∈ [wg1, wg2]
    ∧ alFind (downloadAll wnetC7 wOutC7 [wg1, wg2] [("g2", [7])]) wg2.filename
        = some (((alFind [("g2", [7])] wg2.filename).getD [])
            ++ workerWritten wnetC7 wOutC7 wg2) :=
  ⟨by decide, scheduler_worker_isolation wnetC7 wOutC7 [wg1, wg2] [("g2", [7])] wg2
      (by decide) (by decide)⟩

theorem aggFiles_append (did : Nat) :
    ∀ (u w : List FileInfo) (m : List (String × (FileInfo × Nat)))
      (log : List OverwriteEvent),
      aggFiles did (u ++ w) m log
        = aggFiles did w (aggFiles did u m log).1 (aggFiles did u m log).2 := by
  intro u
  induction u with
  | nil => intro w m log; simp [aggFiles]
  | cons f u ih =>
    intro w m log
    cases hf : alFind m f.filename with
    | some old => simp only [List.cons_append, aggFiles, hf]; exact ih _ _ _
    | none => simp only [List.cons_append, aggFiles, hf]; exact ih _ _ _

theorem aggFiles_no_p (did : Nat) (p : String) :
    ∀ (files : List FileInfo) (m : List (String × (FileInfo × Nat)))
      (log : List OverwriteEvent),
      (∀ f ∈ files, f.filename ≠ p) →
      alFind (aggFiles did files m log).1 p = alFind m p
      ∧ (aggFiles did files m log).2.filter (fun e => e.path == p)
        = log.filter (fun e => e.path == p) := by
  intro files
  induction files with
  | nil => intro m log _; simp [aggFiles]
  | cons f rest ih =>
    intro m log h
    have hfp : f.filename ≠ p := h f (by simp)
    have hstep := fun m' log' => ih m' log' (fun x hx => h x (by simp [hx]))
    cases hf : alFind m f.filename with
    | some old =>
      simp only [aggFiles, hf]
      constructor
      · rw [(hstep _ _).1, alFind_alSet_ne _ _ _ _ (Ne.symm hfp)]
      · rw [(hstep _ _).2]
        simp [List.filter_append, hfp]
    | none =>
      simp only [aggFiles, hf]
      constructor
      · rw [(hstep _ _).1, alFind_alSet_ne _ _ _ _ (Ne.symm hfp)]
      · exact (hstep _ _).2

theorem aggFiles_single_p (did : Nat) (p : String) (e : FileInfo)
    (u v : List FileInfo) (m : List (String × (FileInfo × Nat)))
    (log : List OverwriteEvent)
    (hu : ∀ f ∈ u, f.filename ≠ p) (hv : ∀ f ∈ v, f.filename ≠ p)
    (he : e.filename = p) :
    alFind (aggFiles did (u ++ e :: v) m log).1 p = some (e, did)
    ∧ (aggFiles did (u ++ e :: v) m log).2.filter (fun x => x.path == p)
      = log.filter (fun x => x.path == p)
        ++ (match alFind m p with
            | some old => [⟨p, old.2, did⟩]
            | none => []) := by
  subst he
  rw [aggFiles_append]
  obtain ⟨hU1, hU2⟩ := aggFiles_no_p did e.filename u m log hu
  cases hm : alFind m e.filename with
  | some old =>
    have hr1 : alFind (aggFiles did u m log).1 e.filename = some old := by
      rw [hU1, hm]
    simp only [aggFiles, hr1]
    obtain ⟨hV1, hV2⟩ := aggFiles_no_p did e.filename v
      (alSet (aggFiles did u m log).1 e.filename (e, did))
      ((aggFiles did u m log).2 ++ [⟨e.filename, old.2, did⟩]) hv
    constructor
    · rw [hV1, alFind_alSet_self]
    · rw [hV2]
      simp [List.filter_append, hU2]
  | none =>
    have hr1 : alFind (aggFiles did u m log).1 e.filename = none := by
      rw [hU1, hm]
    simp only [aggFiles, hr1]
    obtain ⟨hV1, hV2⟩ := aggFiles_no_p did e.filename v
      (alSet (aggFiles did u m log).1 e.filename (e, did))
      (aggFiles did u m log).2 hv
    constructor
    · rw [hV1, alFind_alSet_self]
    · rw [hV2]
      simp [hU2]

theorem aggDepots_step (d : AggDepot) (ds : List AggDepot)
    (m : List (String × (FileInfo × Nat))) (log : List OverwriteEvent) :
    aggDepots (d :: ds) m log
      = aggDepots ds (aggFiles d.depot_id d.files m log).1
          (aggFiles d.depot_id d.files m log).2 := by
  simp [aggDepots]

theorem aggDepots_append :
    ∀ (ds es : List AggDepot) (m : List (String × (FileInfo × Nat)))
      (log : List OverwriteEvent),
      aggDepots (ds ++ es) m log
        = aggDepots es (aggDepots ds m log).1 (aggDepots ds m log).2 := by
  intro ds
  induction ds with
  | nil => intro es m log; simp [aggDepots]
  | cons d ds ih =>
    intro es m log
    rw [List.cons_append, aggDepots_step, ih, aggDepots_step]

theorem aggDepots_no_p (p : String) :
    ∀ (ds : List AggDepot) (m : List (String × (FileInfo × Nat)))
      (log : List OverwriteEvent),
      (∀ d ∈ ds, ∀ f ∈ d.files, f.filename ≠ p) →
      alFind (aggDepots ds m log).1 p = alFind m p
      ∧ (aggDepots ds m log).2.filter (fun e => e.path == p)
        = log.filter (fun e => e.path == p) := by
  intro ds
  induction ds with
  | nil => intro m log _; simp [aggDepots]
  | cons d ds ih =>
    intro m log h
    rw [aggDepots_step]
    obtain ⟨h1, h2⟩ := aggFiles_no_p d.depot_id p d.files m log (h d (by simp))
    obtain ⟨h3, h4⟩ := ih (aggFiles d.depot_id d.files m log).1
      (aggFiles d.depot_id d.files m log).2 (fun x hx => h x (by simp [hx]))
    exact ⟨h3.trans h1, h4.trans h2⟩

/-- Claim C1: manifest aggregation is last-writer-wins in queue order — when
a path appears in an earlier depot `A` and a later depot `B` (and nowhere
else), the aggregated map sends the path to `B`'s entry paired with `B`'s
depot id, and exactly one overwrite event `(path, A, B)` is logged. -/
theorem aggregator_last_writer_wins
    (pre mid post : List AggDepot) (A B : AggDepot) (p : String)
    (eA eB : FileInfo) (u1 u2 v1 v2 : List FileInfo)
    (hA : A.files = u1 ++ eA :: u2) (heA : eA.filename = p)
    (hu1 : ∀ f ∈ u1, f.filename ≠ p) (hu2 : ∀ f ∈ u2, f.filename ≠ p)
    (hB : B.files = v1 ++ eB :: v2) (heB : eB.filename = p)
    (hv1 : ∀ f ∈ v1, f.filename ≠ p) (hv2 : ∀ f ∈ v2, f.filename ≠ p)
    (hother : ∀ d ∈ pre ++ mid ++ post, ∀ f ∈ d.files, f.filename ≠ p) :
    alFind (aggregate (pre ++ A :: (mid ++ B :: post))).1 p = some (eB, B.depot_id)
    ∧ (aggregate (pre ++ A :: (mid ++ B :: post))).2.filter (fun e => e.path == p)
      = [⟨p, A.depot_id, B.depot_id⟩] := by
  have hpre : ∀ d ∈ pre, ∀ f ∈ d.files, f.filename ≠ p := by
    intro d hd; exact hother d (by simp [hd])
  have hmid : ∀ d ∈ mid, ∀ f ∈ d.files, f.filename ≠ p := by
    intro d hd; exact hother d (by simp [hd])
  have hpost : ∀ d ∈ post, ∀ f ∈ d.files, f.filename ≠ p := by
    intro d hd; exact hother d (by simp [hd])
  unfold aggregate
  rw [aggDepots_append, aggDepots_step, hA, aggDepots_append, aggDepots_step, hB]
  obtain ⟨hf0, hl0⟩ := aggDepots_no_p p pre [] [] hpre
  have hm1 : alFind (aggDepots pre [] []).1 p = none := by
    rw [hf0]; rfl
  have hl1 : (aggDepots pre [] []).2.filter (fun e => e.path == p) = [] := by
    rw [hl0]; rfl
  obtain ⟨hfA, hlA⟩ := aggFiles_single_p A.depot_id p eA u1 u2
    (aggDepots pre [] []).1 (aggDepots pre [] []).2 hu1 hu2 heA
  rw [hm1] at hlA
  rw [hl1] at hlA
  simp only [List.nil_append] at hlA
  obtain ⟨hfM, hlM⟩ := aggDepots_no_p p mid
    (aggFiles A.depot_id (u1 ++ eA :: u2) (aggDepots pre [] []).1 (aggDepots pre [] []).2).1
    (aggFiles A.depot_id (u1 ++ eA :: u2) (aggDepots pre [] []).1 (aggDepots pre [] []).2).2
    hmid
  rw [hfA] at hfM
  rw [hlA] at hlM
  obtain ⟨hfB, hlB⟩ := aggFiles_single_p B.depot_id p eB v1 v2
    (aggDepots mid
      (aggFiles A.depot_id (u1 ++ eA :: u2) (aggDepots pre [] []).1 (aggDepots pre [] []).2).1
      (aggFiles A.depot_id (u1 ++ eA :: u2) (aggDepots pre [] []).1 (aggDepots pre [] []).2).2).1
    (aggDepots mid
      (aggFiles A.depot_id (u1 ++ eA :: u2) (aggDepots pre [] []).1 (aggDepots pre [] []).2).1
      (aggFiles A.depot_id (u1 ++ eA :: u2) (aggDepots pre [] []).1 (aggDepots pre [] []).2).2).2
    hv1 hv2 heB
  rw [hfM] at hlB
  rw [hlM] at hlB
  simp only at hlB
  obtain ⟨hfP, hlP⟩ := aggDepots_no_p p post
    (aggFiles B.depot_id (v1 ++ eB :: v2)
      (aggDepots mid
        (aggFiles A.depot_id (u1 ++ eA :: u2) (aggDepots pre [] []).1 (aggDepots pre [] []).2).1
        (aggFiles A.depot_id (u1 ++ eA :: u2) (aggDepots pre [] []).1 (aggDepots pre [] []).2).2).1
      (aggDepots mid
        (aggFiles A.depot_id (u1 ++ eA :: u2) (aggDepots pre [] []).1 (aggDepots pre [] []).2).1
        (aggFiles A.depot_id (u1 ++ eA :: u2) (aggDepots pre [] []).1 (aggDepots pre [] []).2).2).2).1
    (aggFiles B.depot_id (v1 ++ eB :: v2)
      (aggDepots mid
        (aggFiles A.depot_id (u1 ++ eA :: u2) (aggDepots pre [] []).1 (aggDepots pre [] []).2).1
        (aggFiles A.depot_id (u1 ++ eA :: u2) (aggDepots pre [] []).1 (aggDepots pre [] []).2).2).1
      (aggDepots mid
        (aggFiles A.depot_id (u1 ++ eA :: u2) (aggDepots pre [] []).1 (aggDepots pre [] []).2).1
        (aggFiles A.depot_id (u1 ++ eA :: u2) (aggDepots pre [] []).1 (aggDepots pre [] []).2).2).2).2
    hpost
  constructor
  · rw [hfP, hfB]
  · rw [hlP, hlB]; rfl

theorem aggregator_last_writer_wins_witness :
    (wFileA.filename = "shared.txt" ∧ wFileB.filename = "shared.txt")
    ∧ (alFind (aggregate ([] ++ wDepotA :: ([] ++ wDepotB :: []))).1 "shared.txt"
        = some (wFileB, wDepotB.depot_id)
       ∧ (aggregate ([] ++ wDepotA :: ([] ++ wDepotB :: []))).2.filter
            (fun e => e.path == "shared.txt")
          = [⟨"shared.txt", wDepotA.depot_id, wDepotB.depot_id⟩]) :=
  ⟨⟨rfl, rfl⟩,
    aggregator_last_writer_wins [] [] [] wDepotA wDepotB "shared.txt" wFileA wFileB
      [] [] [] [] rfl rfl (by simp) (by simp) rfl rfl (by simp) (by simp) (by simp)⟩


theorem alFind_alSet_id {κ : Type} [DecidableEq κ] {α : Type}
    (m : List (κ × α)) (k : κ) (d : α) (h : alFind m k = some d) (k' : κ) :
    alFind (alSet m k d) k' = alFind m k' := by
  by_cases hk : k' = k
  · subst hk; rw [alFind_alSet_self, h]
  · exact alFind_alSet_ne m k k' d hk

theorem verifyPass_nil (hash : HashFn) (fs : FS) :
    verifyPass hash fs [] = ([], fs, []) := rfl

theorem verifyPass_cons_valid (hash : HashFn) (fs : FS) (fi : FileInfo)
    (rest : List FileInfo) (d : List Nat)
    (hdir : fi.is_directory = false)
    (hfind : alFind fs fi.filename = some d)
    (hv : verifiedOffset hash d fi.chunks = fi.size) :
    verifyPass hash fs (fi :: rest)
      = (fi :: (verifyPass hash (alSet fs fi.filename d) rest).1,
         (verifyPass hash (alSet fs fi.filename d) rest).2.1,
         (verifyPass hash (alSet fs fi.filename d) rest).2.2) := by
  have hW : verify_and_repair_file hash fi (alFind fs fi.filename) false
      = (fi, some d, true) := by
    rw [hfind]; simp [verify_and_repair_file, hv]
  simp [verifyPass, hdir, hW, applyVerifyFs]

theorem verifyPass_cons_absent (hash : HashFn) (fs : FS) (fi : FileInfo)
    (rest : List FileInfo)
    (hdir : fi.is_directory = false)
    (hfind : alFind fs fi.filename = none) :
    verifyPass hash fs (fi :: rest)
      = ({ fi with offset := 0 } :: (verifyPass hash fs rest).1,
         (verifyPass hash fs rest).2.1,
         { fi with offset := 0 } :: (verifyPass hash fs rest).2.2) := by
  have hW : verify_and_repair_file hash fi (alFind fs fi.filename) false
      = ({ fi with offset := 0 }, none, false) := by
    rw [hfind]; rfl
  simp [verifyPass, hdir, hW, applyVerifyFs]

theorem downloadAll_nil (net : String → List Nat) (outcome : String → Option Nat)
    (fs : FS) : downloadAll net outcome [] fs = fs := rfl

theorem verifyPass_all_valid (hash : HashFn) :
    ∀ (files : List FileInfo) (fs : FS),
      (∀ fi ∈ files, fi.is_directory = false ∧
        ∃ d, alFind fs fi.filename = some d ∧ verifiedOffset hash d fi.chunks = fi.size) →
      (verifyPass hash fs files).2.2 = []
      ∧ ∀ k, alFind (verifyPass hash fs files).2.1 k = alFind fs k := by
  intro files
  induction files with
  | nil => intro fs _; exact ⟨rfl, fun k => rfl⟩
  | cons fi rest ih =>
    intro fs h
    obtain ⟨hdir, d, hfind, hv⟩ := h fi (by simp)
    rw [verifyPass_cons_valid hash fs fi rest d hdir hfind hv]
    have hpres := alFind_alSet_id fs fi.filename d hfind
    have hrest : ∀ x ∈ rest, x.is_directory = false ∧
        ∃ dx, alFind (alSet fs fi.filename d) x.filename = some dx
          ∧ verifiedOffset hash dx x.chunks = x.size := by
      intro x hx
      obtain ⟨hdx, dx, hfx, hvx⟩ := h x (by simp [hx])
      exact ⟨hdx, dx, (hpres x.filename).trans hfx, hvx⟩
    obtain ⟨h1, h2⟩ := ih (alSet fs fi.filename d) hrest
    exact ⟨h1, fun k => (h2 k).trans (hpres k)⟩

theorem cycleRun_one_valid (hash : HashFn) (net : String → List Nat)
    (outcome : String → Option Nat) (fuel : Nat) (files : List FileInfo) (fs : FS)
    (vo acc : Bool) (h : (verifyPass hash fs files).2.2 = []) :
    cycleRun hash net outcome (fuel + 1) files fs vo acc
      = some (true, 1, 0, (verifyPass hash fs files).2.1) := by
  simp only [cycleRun, h]
  simp

/-- Claim C4: with three non-directory target files of which two verify
clean and one is absent, a repair-mode reconciliation run downloads exactly
one file and performs exactly two verification passes before returning
success, when the download completes on the first attempt. -/
theorem reconciliation_three_file_run (hash : HashFn) (net : String → List Nat)
    (f1 f2 f3 : FileInfo) (d1 d2 c3 : List Nat) (fs : FS) (accept : Bool)
    (hd1 : f1.is_directory = false) (hd2 : f2.is_directory = false)
    (hd3 : f3.is_directory = false)
    (hn12 : f1.filename ≠ f2.filename) (hn13 : f3.filename ≠ f1.filename)
    (hn23 : f3.filename ≠ f2.filename)
    (hf1 : alFind fs f1.filename = some d1)
    (hv1 : verifiedOffset hash d1 f1.chunks = f1.size)
    (hf2 : alFind fs f2.filename = some d2)
    (hv2 : verifiedOffset hash d2 f2.chunks = f2.size)
    (hf3 : alFind fs f3.filename = none)
    (hnet : net f3.filename = c3)
    (hv3 : verifiedOffset hash c3 f3.chunks = f3.size) :
    ∃ fsf, cycleRun hash net (fun _ => none) 2 [f1, f2, f3] fs false accept
      = some (true, 2, 1, fsf) := by
  have hg2 : alFind (alSet fs f1.filename d1) f2.filename = some d2 := by
    rw [alFind_alSet_ne fs f1.filename f2.filename d1 (Ne.symm hn12), hf2]
  have hg3 : alFind (alSet (alSet fs f1.filename d1) f2.filename d2) f3.filename
      = none := by
    rw [alFind_alSet_ne _ f2.filename f3.filename d2 hn23,
      alFind_alSet_ne fs f1.filename f3.filename d1 hn13, hf3]
  have hds : download_single_file net (fun _ => none) { f3 with offset := 0 }
      (alSet (alSet fs f1.filename d1) f2.filename d2)
      = alSet (alSet (alSet fs f1.filename d1) f2.filename d2) f3.filename c3 := by
    simp [download_single_file, hg3, hnet]
  have hh1 : alFind (alSet (alSet (alSet fs f1.filename d1) f2.filename d2)
      f3.filename c3) f1.filename = some d1 := by
    rw [alFind_alSet_ne _ f3.filename f1.filename c3 (Ne.symm hn13),
      alFind_alSet_ne _ f2.filename f1.filename d2 hn12,
      alFind_alSet_self]
  have hh2 : alFind (alSet (alSet (alSet fs f1.filename d1) f2.filename d2)
      f3.filename c3) f2.filename = some d2 := by
    rw [alFind_alSet_ne _ f3.filename f2.filename c3 (Ne.symm hn23),
      alFind_alSet_self]
  have hh3 : alFind (alSet (alSet (alSet fs f1.filename d1) f2.filename d2)
      f3.filename c3) f3.filename = some c3 := alFind_alSet_self _ _ _
  have hA : ∀ fi ∈ [f1, f2, { f3 with offset := 0 }], fi.is_directory = false ∧
      ∃ d, alFind (alSet (alSet (alSet fs f1.filename d1) f2.filename d2)
          f3.filename c3) fi.filename = some d
        ∧ verifiedOffset hash d fi.chunks = fi.size := by
    intro fi hfi
    simp only [List.mem_cons, List.not_mem_nil, or_false] at hfi
    rcases hfi with rfl | rfl | rfl
    · exact ⟨hd1, d1, hh1, hv1⟩
    · exact ⟨hd2, d2, hh2, hv2⟩
    · exact ⟨hd3, c3, hh3, hv3⟩
  have hp2 := verifyPass_all_valid hash [f1, f2, { f3 with offset := 0 }]
    (alSet (alSet (alSet fs f1.filename d1) f2.filename d2) f3.filename c3) hA
  refine ⟨(verifyPass hash (alSet (alSet (alSet fs f1.filename d1) f2.filename d2)
      f3.filename c3) [f1, f2, { f3 with offset := 0 }]).2.1, ?_⟩
  show cycleRun hash net (fun _ => none) (1 + 1) [f1, f2, f3] fs false accept
    = some (true, 2, 1, (verifyPass hash (alSet (alSet (alSet fs f1.filename d1)
        f2.filename d2) f3.filename c3) [f1, f2, { f3 with offset := 0 }]).2.1)
  simp only [cycleRun]
  rw [verifyPass_cons_valid hash fs f1 [f2, f3] d1 hd1 hf1 hv1,
    verifyPass_cons_valid hash _ f2 [f3] d2 hd2 hg2 hv2,
    verifyPass_cons_absent hash _ f3 [] hd3 hg3,
    verifyPass_nil]
  simp only [List.isEmpty_cons, Bool.false_and, Bool.false_eq_true, if_false,
    downloadAll_cons, downloadAll_nil]
  rw [hds, hp2.1]
  simp

theorem reconciliation_three_file_run_witness :
    (alFind wfs0 wf1.filename = some [1, 2]
     ∧ alFind wfs0 wf2.filename = some [3, 4]
     ∧ alFind wfs0 wf3.filename = none)
    ∧ ∃ fsf, cycleRun demoHash wnet (fun _ => none) 2 [wf1, wf2, wf3] wfs0 false true
        = some (true, 2, 1, fsf) :=
  ⟨⟨by decide, by decide, by decide⟩,
    reconciliation_three_file_run demoHash wnet wf1 wf2 wf3 [1, 2] [3, 4] [5, 6] wfs0 true
      (by decide) (by decide) (by decide) (by decide) (by decide) (by decide)
      (by decide) (by decide) (by decide) (by decide) (by decide) (by decide) (by decide)⟩

theorem mem_insertByKey {α : Type} (x y : Nat × α) (l : List (Nat × α)) :
    y ∈ insertByKey x l ↔ y = x ∨ y ∈ l := by
  induction l with
  | nil => simp [insertByKey]
  | cons z zs ih =>
    by_cases h : x.1 < z.1
    · simp only [insertByKey, if_pos h, List.mem_cons]
    · simp only [insertByKey, if_neg h, List.mem_cons, ih]
      tauto

theorem sorted_insertByKey {α : Type} (x : Nat × α) (l : List (Nat × α))
    (h : List.Pairwise (fun a b => a.1 ≤ b.1) l) :
    List.Pairwise (fun a b => a.1 ≤ b.1) (insertByKey x l) := by
  induction l with
  | nil => simp [insertByKey]
  | cons z zs ih =>
    rcases List.pairwise_cons.mp h with ⟨hz, hzs⟩
    by_cases hlt : x.1 < z.1
    · rw [insertByKey, if_pos hlt]
      refine List.pairwise_cons.mpr ⟨?_, h⟩
      intro y hy
      rcases List.mem_cons.mp hy with rfl | hy2
      · omega
      · have := hz y hy2; omega
    · rw [insertByKey, if_neg hlt]
      refine List.pairwise_cons.mpr ⟨?_, ih hzs⟩
      intro y hy
      rcases (mem_insertByKey x y zs).mp hy with rfl | hy2
      · omega
      · exact hz y hy2

theorem sorted_sortByKey {α : Type} (l : List (Nat × α)) :
    List.Pairwise (fun a b => a.1 ≤ b.1) (sortByKey l) := by
  induction l with
  | nil => simp [sortByKey]
  | cons x xs ih => exact sorted_insertByKey x (sortByKey xs) ih

/-- Claim C10: `generate_acf_content` is a pure function whose `SizeOnDisk`
line carries the sum of all depot sizes, whose `InstalledDepots` blocks and
`SharedDepots` lines are emitted sorted ascending by numeric depot id, and
which on the example depot set `{10 ↦ (111, 100), 20 ↦ (222, 50, dlc 30)}`
emits depot 10 before depot 20 with size_on_disk 150. -/
theorem acf_builder_sorted_and_sum :
    (∀ (depots : List (Nat × AcfDetails)),
      List.Pairwise (· ≤ ·) (installedDepotIds depots))
    ∧ (∀ (shared : List (Nat × Nat)),
      List.Pairwise (· ≤ ·) (sharedDepotIds shared))
    ∧ (∀ (app_id : Nat) (info : AcfAppInfo) (depots : List (Nat × AcfDetails))
        (shared : List (Nat × Nat)),
      acfMainLine "SizeOnDisk" (toString ((depots.map fun p => p.2.size).sum))
        ∈ acfContentParts app_id info depots shared)
    ∧ installedDepotIds exAcfDepots = [10, 20]
    ∧ size_on_disk exAcfDepots = 150 := by
  refine ⟨?_, ?_, ?_, by decide, by decide⟩
  · intro depots
    have h := sorted_sortByKey depots
    exact (List.pairwise_map).mpr h
  · intro shared
    have h := sorted_sortByKey shared
    exact (List.pairwise_map).mpr h
  · intro app_id info depots shared
    simp [acfContentParts, mainKvLines, size_on_disk]

theorem dropWhile_eq_self_head (p : Nat → Bool) (l : List Nat)
    (h : ∀ c, l.head? = some c → p c = false) : l.dropWhile p = l := by
  cases l with
  | nil => rfl
  | cons a as => rw [List.dropWhile_cons, h a rfl]; simp

theorem pyStrip_eq_self (l : Line)
    (h1 : ∀ c, l.head? = some c → isPySpace c = false)
    (h2 : ∀ c, l.getLast? = some c → isPySpace c = false) : pyStrip l = l := by
  unfold pyStrip
  rw [dropWhile_eq_self_head _ l h1, dropWhile_eq_self_head _ l.reverse
    (fun c hc => h2 c (by rwa [List.head?_reverse] at hc)), List.reverse_reverse]

theorem mem_of_getLast?_eq (l : List Nat) (c : Nat) (h : l.getLast? = some c) :
    c ∈ l := by
  have hm : c ∈ l.getLast? := by rw [h]; rfl
  rcases List.mem_getLast?_eq_getLast hm with ⟨hne, rfl⟩
  exact List.getLast_mem hne

theorem pyStrip_all_nonspace (l : Line) (h : ∀ c ∈ l, isPySpace c = false) :
    pyStrip l = l :=
  pyStrip_eq_self l (fun c hc => h c (List.mem_of_mem_head? hc))
    (fun c hc => h c (mem_of_getLast?_eq l c hc))

theorem natDigitsRev_digits :
    ∀ (n : Nat) (c : Nat), c ∈ natDigitsRev n → 48 ≤ c ∧ c ≤ 57 := by
  intro n
  induction n using Nat.strong_induction_on with
  | _ n ih =>
    intro c hc
    rw [natDigitsRev] at hc
    by_cases h : n = 0
    · simp [h] at hc
    · rw [dif_neg h] at hc
      rcases List.mem_cons.mp hc with rfl | hc2
      · have := Nat.mod_lt n (show 0 < 10 by omega)
        omega
      · exact ih (n / 10) (Nat.div_lt_self (Nat.pos_of_ne_zero h) (by omega)) c hc2

theorem encNat_digits (n : Nat) : ∀ c ∈ encNat n, 48 ≤ c ∧ c ≤ 57 := by
  intro c hc
  unfold encNat at hc
  by_cases h : n = 0
  · rw [if_pos h] at hc
    simp at hc
    omega
  · rw [if_neg h, List.mem_reverse] at hc
    exact natDigitsRev_digits n c hc

theorem encNat_ne_nil (n : Nat) : encNat n ≠ [] := by
  unfold encNat
  by_cases h : n = 0
  · simp [h]
  · rw [if_neg h]
    intro hcon
    rw [List.reverse_eq_nil_iff, natDigitsRev, dif_neg h] at hcon
    exact List.cons_ne_nil _ _ hcon

theorem digit_nonspace (c : Nat) (h : 48 ≤ c ∧ c ≤ 57) : isPySpace c = false := by
  simp [isPySpace]
  omega

theorem pyStrip_encNat (n : Nat) : pyStrip (encNat n) = encNat n :=
  pyStrip_all_nonspace _ (fun c hc => digit_nonspace c (encNat_digits n c hc))

theorem decVal_append (l : Line) (c : Nat) :
    decVal (l ++ [c]) = 10 * decVal l + (c - 48) := by
  simp [decVal, List.foldl_append]

theorem decVal_natDigitsRev : ∀ (n : Nat), decVal (natDigitsRev n).reverse = n := by
  intro n
  induction n using Nat.strong_induction_on with
  | _ n ih =>
    rw [natDigitsRev]
    by_cases h : n = 0
    · simp [h, decVal]
    · rw [dif_neg h]
      simp only [List.reverse_cons]
      rw [decVal_append, ih (n / 10) (Nat.div_lt_self (Nat.pos_of_ne_zero h) (by omega))]
      omega

theorem decNat_encNat (n : Nat) : decNat (encNat n) = some n := by
  have h1 : (encNat n).isEmpty = false := by
    cases hE : encNat n with
    | nil => exact absurd hE (encNat_ne_nil n)
    | cons a as => rfl
  have h2 : (encNat n).all isDigitB = true := by
    rw [List.all_eq_true]
    intro c hc
    have := encNat_digits n c hc
    simp [isDigitB]
    omega
  have h3 : decVal (encNat n) = n := by
    unfold encNat
    by_cases h : n = 0
    · simp [h, decVal]
    · rw [if_neg h]
      exact decVal_natDigitsRev n
  unfold decNat
  rw [h1, h2]
  simp [h3]

theorem sentinel_head : sentinelLine.head? = some 69 := rfl

theorem pyStrip_encNat_ne_sentinel (n : Nat) : pyStrip (encNat n) ≠ sentinelLine := by
  rw [pyStrip_encNat]
  intro h
  have h69 : (69 : Nat) ∈ encNat n := by
    rw [h]; decide
  have := encNat_digits n 69 h69
  omega

theorem hexVal?_hexChar (d : Nat) (h : d < 16) : hexVal? (hexChar d) = some d := by
  unfold hexChar hexVal?
  by_cases hd : d < 10
  · rw [if_pos hd, if_pos (show 48 ≤ d + 48 ∧ d + 48 ≤ 57 by omega)]
    simp only [Option.some.injEq]
    omega
  · rw [if_neg hd, if_neg (show ¬(48 ≤ d + 87 ∧ d + 87 ≤ 57) by omega),
      if_pos (show 97 ≤ d + 87 ∧ d + 87 ≤ 102 by omega)]
    simp only [Option.some.injEq]
    omega

theorem hexChar_nonspace (d : Nat) (_h : d < 16) : isPySpace (hexChar d) = false := by
  unfold hexChar
  by_cases hd : d < 10
  · rw [if_pos hd]; simp [isPySpace]
  · rw [if_neg hd]; simp [isPySpace]

theorem encHexBytes_nonspace :
    ∀ (bs : List Nat), (∀ b ∈ bs, b < 256) →
      ∀ c ∈ encHexBytes bs, isPySpace c = false := by
  intro bs
  induction bs with
  | nil => intro _ c hc; simp [encHexBytes] at hc
  | cons b rest ih =>
    intro h c hc
    have hb := h b (by simp)
    rcases List.mem_cons.mp hc with rfl | hc2
    · exact hexChar_nonspace _ (by omega)
    · rcases List.mem_cons.mp hc2 with rfl | hc3
      · exact hexChar_nonspace _ (by omega)
      · exact ih (fun x hx => h x (by simp [hx])) c hc3

theorem pyStrip_encHexBytes (bs : List Nat) (h : ∀ b ∈ bs, b < 256) :
    pyStrip (encHexBytes bs) = encHexBytes bs :=
  pyStrip_all_nonspace _ (encHexBytes_nonspace bs h)

theorem decHexBytes_encHexBytes :
    ∀ (bs : List Nat), (∀ b ∈ bs, b < 256) →
      decHexBytes (encHexBytes bs) = some bs := by
  intro bs
  induction bs with
  | nil => intro _; rfl
  | cons b rest ih =>
    intro h
    have hb := h b (by simp)
    simp only [encHexBytes, decHexBytes,
      hexVal?_hexChar (b / 16) (by omega), hexVal?_hexChar (b % 16) (by omega),
      ih (fun x hx => h x (by simp [hx]))]
    have : 16 * (b / 16) + b % 16 = b := by omega
    rw [this]

theorem decLitBody_escBytes (q : Nat) (hq : q = 39 ∨ q = 34) :
    ∀ (bs : List Nat), (∀ b ∈ bs, b < 256) →
      decLitBody q (escBytes q bs ++ [q]) = some bs := by
  have hq92 : ¬(92 : Nat) = q := by rcases hq with rfl | rfl <;> omega
  intro bs
  induction bs with
  | nil =>
    intro _
    simp [escBytes, decLitBody]
  | cons b rest ih =>
    intro h
    have hb := h b (by simp)
    have hrest := ih (fun x hx => h x (by simp [hx]))
    rw [show escBytes q (b :: rest) ++ [q] = escByte q b ++ (escBytes q rest ++ [q]) by
      simp [escBytes, List.append_assoc]]
    unfold escByte
    split_ifs with h1 h2 h3 h4 h5 h6
    · subst h1
      rw [decLitBody.eq_def]
      simp [hq92, hrest]
    · subst h2
      rcases hq with rfl | rfl <;> (rw [decLitBody.eq_def]; simp [hrest])
    · subst h3
      rw [decLitBody.eq_def]
      simp [hq92, hrest]
    · subst h4
      rw [decLitBody.eq_def]
      simp [hq92, hrest]
    · subst h5
      rw [decLitBody.eq_def]
      simp [hq92, hrest]
    · rw [decLitBody.eq_def]
      simp [h1, h2, hrest]
    · have hdiv : b / 16 < 16 := by omega
      have hmod : b % 16 < 16 := by omega
      rw [decLitBody.eq_def]
      simp [hq92, hexVal?_hexChar (b / 16) hdiv, hexVal?_hexChar (b % 16) hmod, hrest]
      omega

theorem bytesLitQuote_cases (bs : List Nat) :
    bytesLitQuote bs = 39 ∨ bytesLitQuote bs = 34 := by
  unfold bytesLitQuote
  by_cases h : (bs.contains 39 && !(bs.contains 34)) = true
  · rw [if_pos h]; right; rfl
  · rw [if_neg h]; left; rfl

theorem pyStrip_encPyBytes (bs : List Nat) :
    pyStrip (encPyBytes bs) = encPyBytes bs := by
  apply pyStrip_eq_self
  · intro c hc
    have h98 : 98 = c := by simpa [encPyBytes] using hc
    subst h98; decide
  · intro c hc
    have e : encPyBytes bs
        = (98 :: bytesLitQuote bs :: escBytes (bytesLitQuote bs) bs)
          ++ [bytesLitQuote bs] := by
      simp [encPyBytes]
    rw [e, List.getLast?_concat] at hc
    have : bytesLitQuote bs = c := by injection hc
    subst this
    rcases bytesLitQuote_cases bs with h | h <;> rw [h] <;> decide

theorem decPyBytesLit_encPyBytes (bs : List Nat) (h : ∀ b ∈ bs, b < 256) :
    decPyBytesLit (encPyBytes bs) = some bs := by
  have hq := bytesLitQuote_cases bs
  show decPyBytesLit (98 :: bytesLitQuote bs ::
    (escBytes (bytesLitQuote bs) bs ++ [bytesLitQuote bs])) = some bs
  simp only [decPyBytesLit]
  rw [if_pos hq]
  exact decLitBody_escBytes _ hq bs h

theorem parseRecords_record (mok : ManifestOk) (a : Nat) (st : QueueState)
    (d : SfdDepot) (rest : List Line)
    (hk : ∀ b ∈ d.depot_key, b < 256) (hp : ∀ b ∈ d.manifest_content, b < 256)
    (hm : mok d.manifest_content = true) :
    parseRecords mok a st (sfdRecordLines d ++ rest)
      = parseRecords mok a (pushDepot a st d) rest := by
  show parseRecords mok a st (encNat d.depot_id :: encNat d.manifest_id ::
    encHexBytes d.depot_key :: encPyBytes d.manifest_content :: rest) = _
  simp only [parseRecords]
  rw [if_neg (pyStrip_encNat_ne_sentinel d.depot_id)]
  rw [pyStrip_encNat, decNat_encNat, pyStrip_encNat, decNat_encNat,
    pyStrip_encHexBytes d.depot_key hk, decHexBytes_encHexBytes d.depot_key hk,
    pyStrip_encPyBytes, decPyBytesLit_encPyBytes d.manifest_content hp]
  simp [hm]

theorem parseRecords_records (mok : ManifestOk) (a : Nat) :
    ∀ (ds : List SfdDepot) (st : QueueState) (tail : List Line),
      sfdWfB ds = true → ds.all (fun d => mok d.manifest_content) = true →
      parseRecords mok a st (sfdRecords ds ++ tail)
        = parseRecords mok a (ds.foldl (pushDepot a) st) tail := by
  intro ds
  induction ds with
  | nil => intro st tail _ _; rfl
  | cons d ds ih =>
    intro st tail hwf hmok
    simp only [sfdWfB, List.all_cons, Bool.and_eq_true] at hwf
    obtain ⟨⟨hk, hp⟩, hrest⟩ := hwf
    simp only [List.all_cons, Bool.and_eq_true] at hmok
    obtain ⟨hm, hmrest⟩ := hmok
    have hk' : ∀ b ∈ d.depot_key, b < 256 := by
      intro b hb
      have := List.all_eq_true.mp hk b hb
      simpa using this
    have hp' : ∀ b ∈ d.manifest_content, b < 256 := by
      intro b hb
      have := List.all_eq_true.mp hp b hb
      simpa using this
    rw [show sfdRecords (d :: ds) ++ tail = sfdRecordLines d ++ (sfdRecords ds ++ tail) by
        simp [sfdRecords, List.append_assoc],
      parseRecords_record mok a st d _ hk' hp' hm,
      ih (pushDepot a st d) tail hrest hmrest]
    rfl

theorem parseRecords_single (mok : ManifestOk) (a : Nat) (st : QueueState) (l : Line) :
    parseRecords mok a st [l] = st := by
  simp [parseRecords]

theorem foldl_pushDepot (a : Nat) :
    ∀ (ds : List SfdDepot) (st : QueueState),
      (ds.foldl (pushDepot a) st).app_id = st.app_id
      ∧ (ds.foldl (pushDepot a) st).depots_to_download
        = st.depots_to_download ++ ds := by
  intro ds
  induction ds with
  | nil => intro st; exact ⟨rfl, by simp⟩
  | cons d ds ih =>
    intro st
    simp only [List.foldl_cons]
    obtain ⟨h1, h2⟩ := ih (pushDepot a st d)
    refine ⟨h1, ?_⟩
    rw [h2]
    simp [pushDepot]

/-- Claim C5: a well-formed persisted queue descriptor — one written by
`_write_sfd_file` from byte-valued keys and payloads, whose payloads the
external manifest constructor accepts (as every genuinely fetched manifest
is) — deserializes to the same app id and the same depot list in the same
order, and re-serializing the loaded queue reproduces the original
descriptor (including sentinel placement) exactly. -/
theorem sfd_round_trip (mok : ManifestOk) (a : Nat) (ds : List SfdDepot)
    (h : sfdWfB ds = true)
    (hmok : ds.all (fun d => mok d.manifest_content) = true) :
    (loadSfd mok (writeSfd a ds)).app_id = some a
    ∧ (loadSfd mok (writeSfd a ds)).depots_to_download = ds
    ∧ writeSfd a (loadSfd mok (writeSfd a ds)).depots_to_download = writeSfd a ds := by
  have e : writeSfd a ds = encNat a :: (sfdRecords ds ++ [sentinelLine]) := by
    simp [writeSfd, sfdBody]
  have hload : loadSfd mok (writeSfd a ds)
      = ds.foldl (pushDepot a) { emptyQueue with app_id := some a } := by
    rw [e]
    simp only [loadSfd]
    rw [pyStrip_encNat, decNat_encNat]
    show parseRecords mok a { emptyQueue with app_id := some a }
      (sfdRecords ds ++ [sentinelLine]) = _
    rw [parseRecords_records mok a ds _ [sentinelLine] h hmok, parseRecords_single]
  obtain ⟨h1, h2⟩ := foldl_pushDepot a ds { emptyQueue with app_id := some a }
  rw [hload]
  refine ⟨h1, ?_, ?_⟩
  · rw [h2]; rfl
  · rw [h2]; rfl

theorem sfd_round_trip_witness :
    (sfdWfB [demoSfdDepot] = true
     ∧ [demoSfdDepot].all (fun d => demoMok d.manifest_content) = true)
    ∧ ((loadSfd demoMok (writeSfd 1 [demoSfdDepot])).app_id = some 1
       ∧ (loadSfd demoMok (writeSfd 1 [demoSfdDepot])).depots_to_download
          = [demoSfdDepot]
       ∧ writeSfd 1 (loadSfd demoMok (writeSfd 1 [demoSfdDepot])).depots_to_download
          = writeSfd 1 [demoSfdDepot]) :=
  ⟨⟨by decide, by decide⟩, sfd_round_trip demoMok 1 [demoSfdDepot] (by decide) (by decide)⟩

